import Mathlib

/-!
Verification of the HTML-to-Markdown converter (repository `4eta/html_to_md`).

The repository contains two copies of a browser-side converter class:
`src/js/converter.js` (converts the whole document body) and
`src/unnamed/part_001` (the same class extended with a marker-delimited
range extractor).  This file gives a shallow embedding of the parsed DOM
tree, of the browser string/DOM primitives the code uses, and of the
repository's functions, and proves the specification claims about them.

Modelling conventions:
  * A document tree is `Node` (mutual with `NodeList` so that all
    tree-recursive functions are structural and kernel-reducible).
  * DOM node identity (JavaScript `===`) is modelled positionally by the
    reversed child-index path of a node (innermost index first), as the
    extractor only compares nodes obtained from one `querySelectorAll`
    traversal of one tree.
  * JavaScript string primitives (`trim`, `toLowerCase`, `includes`,
    `replace(/\n/g,' ')`) are modelled as executable functions on the
    character list of a `String`.
-/

/-! ## The document tree -/

mutual
/-- A DOM node: a text node (its character data) or an element node
(tag name, attribute list, child nodes in document order). -/
inductive Node where
  | text (s : String)
  | elem (tag : String) (attrs : List (String × String)) (children : NodeList)
deriving DecidableEq
/-- The ordered child list of an element (mutual with `Node`). -/
inductive NodeList where
  | nil
  | cons (hd : Node) (tl : NodeList)
deriving DecidableEq
end

/-- Convert a child list to an ordinary `List` (models `Array.from(...)`). -/
def NodeList.toList : NodeList → List Node
  | .nil => []
  | .cons c cs => c :: cs.toList

/-- Build a child list from an ordinary `List` (models appending collected
nodes to a fresh container). -/
def NodeList.ofList : List Node → NodeList
  | [] => .nil
  | c :: cs => .cons c (NodeList.ofList cs)

/-- Whether a node is an element node (`nodeType === Node.ELEMENT_NODE`). -/
def Node.isElem : Node → Bool
  | .text _ => false
  | .elem _ _ _ => true

/-! ## Host string primitives (JavaScript semantics, executable) -/

/-- Model of JavaScript `String.prototype.trim`: drop whitespace from both
ends. -/
def jsTrim (s : String) : String :=
  ⟨((s.data.dropWhile Char.isWhitespace).reverse.dropWhile Char.isWhitespace).reverse⟩

/-- Model of JavaScript `String.prototype.toLowerCase` on tag names. -/
def jsToLower (s : String) : String :=
  ⟨s.data.map Char.toLower⟩

/-- Model of `s.replace(/\n/g, ' ')`: every newline becomes a space. -/
def jsReplaceNl (s : String) : String :=
  ⟨s.data.map (fun c => if c = '\n' then ' ' else c)⟩

/-- Boolean test: is `p` a prefix of `l`? (helper for `strContains`). -/
def isPre : List Char → List Char → Bool
  | [], _ => true
  | _ :: _, [] => false
  | a :: as, b :: bs => a == b && isPre as bs

/-- Boolean test: does `l` contain `pat` as a contiguous segment? -/
def hasSeg (pat : List Char) : List Char → Bool
  | [] => isPre pat []
  | c :: rest => isPre pat (c :: rest) || hasSeg pat rest

/-- Model of JavaScript `s.includes(m)`: `m` occurs contiguously in `s`. -/
def strContains (s m : String) : Bool :=
  hasSeg m.data s.data

/-- Predicate: `a` occurs as a contiguous segment of `b` (the propositional meaning of
`hasSeg`). -/
def SegIn (a b : List Char) : Prop := ∃ s t, b = s ++ a ++ t

/-! ## Host DOM read primitives -/

mutual
/-- DOM `textContent` of a node: the concatenated data of every descendant
text node, in document order. -/
def Node.textContent : Node → String
  | .text s => s
  | .elem _ _ cs => NodeList.textContent cs
/-- The `textContent` concatenated over a child list. -/
def NodeList.textContent : NodeList → String
  | .nil => ""
  | .cons c cs => c.textContent ++ cs.textContent
end

/-- DOM `getAttribute`: the value of the first binding of `name`, or `none`
(JavaScript `null`) when absent. -/
def getAttr (attrs : List (String × String)) (name : String) : Option String :=
  (attrs.find? (fun p => p.1 == name)).map (fun p => p.2)

/-- Number of element children (`container.children.length`). -/
def NodeList.countElems : NodeList → Nat
  | .nil => 0
  | .cons (.text _) cs => cs.countElems
  | .cons (.elem _ _ _) cs => cs.countElems + 1

/-- Model of `querySelectorAll` over the descendants of the node that owns this child
list, for a selector that is a union of (lowercase) tag names: all matching
element descendants in document order (pre-order). HTML selector matching is
case-insensitive, hence the `jsToLower` on the tag. -/
def NodeList.queryAll (sel : List String) : NodeList → List Node
  | .nil => []
  | .cons (.text _) cs => NodeList.queryAll sel cs
  | .cons (.elem t a cs') cs =>
    (if jsToLower t ∈ sel then [Node.elem t a cs'] else [])
      ++ NodeList.queryAll sel cs' ++ NodeList.queryAll sel cs

/-- Model of `element.querySelectorAll(sel)` (descendants only, never the node
itself). -/
def Node.queryAll (sel : List String) : Node → List Node
  | .text _ => []
  | .elem _ _ cs => NodeList.queryAll sel cs

/-- Model of `doc.querySelectorAll('*')` with positional identity: every element
descendant, in document order (pre-order, parent before children), paired
with its reversed child-index path (innermost index first; indices count all
child nodes, text nodes included).  The second loop index argument is the
child index of the head of the list within its parent. -/
def NodeList.elemsWP : NodeList → Nat → List (List Nat × Node)
  | .nil, _ => []
  | .cons (.text _) cs, i => NodeList.elemsWP cs (i + 1)
  | .cons (.elem t a cs') cs, i =>
    ([i], Node.elem t a cs')
      :: (((NodeList.elemsWP cs' 0).map (fun q => (q.1 ++ [i], q.2)))
          ++ NodeList.elemsWP cs (i + 1))

/-- All element descendants of `doc` with their reversed paths, in document
order; the root itself is excluded (it is the document, not an element). -/
def Node.elemsWP : Node → List (List Nat × Node)
  | .text _ => []
  | .elem _ _ cs => NodeList.elemsWP cs 0

/-- Child at index `i` of a child list. -/
def NodeList.get? : NodeList → Nat → Option Node
  | .nil, _ => none
  | .cons c _, 0 => some c
  | .cons _ cs, n + 1 => cs.get? n

/-- Node at a forward path (outermost child index first). -/
def Node.nodeAtF : Node → List Nat → Option Node
  | n, [] => some n
  | .text _, _ :: _ => none
  | .elem _ _ cs, i :: p =>
    match cs.get? i with
    | some c => c.nodeAtF p
    | none => none

/-- Node at a reversed path (innermost child index first), the path format
produced by `elemsWP`. -/
def Node.nodeAtR (root : Node) (rp : List Nat) : Option Node :=
  root.nodeAtF rp.reverse

/-! ## The Markdown emitter of `src/js/converter.js` (lines 114-248)

`processElement` iterates the child nodes of an element, emitting trimmed
text for text nodes and dispatching element nodes to
`convertElementToMarkdown`; the latter dispatches on the lowercased tag
name.  `this.processElement(element)` inside a dispatch branch immediately
iterates `element.childNodes`, so it is transcribed as `processNodesL`
applied to the children of the branch's element.  `processListItems` and
`processTable` iterate computed node collections (direct `li` children,
`tr`/`td`/`th` descendants); to keep the recursion structural they are
transcribed as sweeps over the child list (`listItemLines`, `rowsDataL`,
`renderedCellsL`), and are proved below to equal the literal
"collect with `querySelectorAll`, then render each" form
(`rowsDataL_eq_queryAll`, `renderedCellsL_eq_queryAll`,
`listItemLines_eq_liLines`). -/

namespace ConvJs

/-- The `rows.forEach` body of `processTable` on the collected row data
(per row: rendered cell contents and whether the row has a `th` descendant):
after the first row, when it has a `th`, a `---` separator row with one entry
per cell is inserted (`rowIndex === 0 && row.querySelector('th')`). -/
def renderRowsTail : List (List String × Bool) → String
  | [] => ""
  | (cells, _) :: rest =>
    "| " ++ String.intercalate " | " cells ++ " |\n" ++ renderRowsTail rest

/-- Render all rows: the first row is followed by the separator row when it
contains a `th` cell; later rows are plain. -/
def renderRows : List (List String × Bool) → String
  | [] => ""
  | (cells, hasTh) :: rest =>
    "| " ++ String.intercalate " | " cells ++ " |\n"
      ++ (if hasTh then
            "| " ++ String.intercalate " | " (cells.map (fun _ => "---")) ++ " |\n"
          else "")
      ++ renderRowsTail rest

mutual
/-- The `for (const node of element.childNodes)` loop of `processElement`:
text nodes contribute their trimmed text plus a space when non-empty;
element nodes are dispatched to `convertElementToMarkdown`. -/
def processNodesL : NodeList → String
  | .nil => ""
  | .cons node cs =>
    (match node with
     | .text s =>
       let t := jsTrim s
       if t = "" then "" else t ++ " "
     | .elem _ _ _ => convertElementToMarkdown node)
      ++ processNodesL cs
termination_by structural ns => ns

/-- Transcription of `convertElementToMarkdown` (converter.js lines 131-214): suppress any
element with empty trimmed text unless its tag is `br`, `hr` or `img`, then
dispatch on the lowercased tag name (the JavaScript `switch` is a
first-match dispatch, transcribed as an `if` chain). -/
def convertElementToMarkdown : Node → String
  | .text _ => ""
  | .elem tag attrs cs =>
    let tagName := jsToLower tag
    let text := jsTrim (NodeList.textContent cs)
    if text = "" ∧ ¬ tagName ∈ (["br", "hr", "img"] : List String) then ""
    else if tagName = "h1" then "\n# " ++ text ++ "\n\n"
    else if tagName = "h2" then "\n## " ++ text ++ "\n\n"
    else if tagName = "h3" then "\n### " ++ text ++ "\n\n"
    else if tagName = "h4" then "\n#### " ++ text ++ "\n\n"
    else if tagName = "h5" then "\n##### " ++ text ++ "\n\n"
    else if tagName = "h6" then "\n###### " ++ text ++ "\n\n"
    else if tagName = "p" then "\n" ++ processNodesL cs ++ "\n\n"
    else if tagName = "br" then "\n"
    else if tagName = "hr" then "\n---\n\n"
    else if tagName = "strong" ∨ tagName = "b" then "**" ++ text ++ "**"
    else if tagName = "em" ∨ tagName = "i" then "*" ++ text ++ "*"
    else if tagName = "code" then "`" ++ text ++ "`"
    else if tagName = "var" then "$" ++ text ++ "$"
    else if tagName = "pre" then
      let codeText :=
        match (NodeList.queryAll ["code"] cs).head? with
        | some codeElement => codeElement.textContent
        | none => text
      "\n```\n" ++ codeText ++ "\n```\n\n"
    else if tagName = "blockquote" then "\n> " ++ processNodesL cs ++ "\n\n"
    else if tagName = "a" then
      match getAttr attrs "href" with
      | some href => if href = "" then text else "[" ++ text ++ "](" ++ href ++ ")"
      | none => text
    else if tagName = "img" then
      let alt := (getAttr attrs "alt").getD ""
      match getAttr attrs "src" with
      | some src => if src = "" then "" else "![" ++ alt ++ "](" ++ src ++ ")"
      | none => ""
    else if tagName = "ul" then
      "\n" ++ String.intercalate "\n" (listItemLines cs "- " false 0) ++ "\n"
    else if tagName = "ol" then
      "\n" ++ String.intercalate "\n" (listItemLines cs "" true 0) ++ "\n"
    else if tagName = "li" then processNodesL cs
    else if tagName = "table" then
      let rows := rowsDataL cs
      if rows = [] then "" else "\n" ++ renderRows rows ++ "\n"
    else processNodesL cs
termination_by structural n => n

/-- Transcription of `processListItems` (lines 216-225), as a sweep over the list element's
children: direct `li` element children, in order, each rendered as
item prefix (`- ` or 1-based `k. `) followed by the trimmed recursive render
of the item; `k` counts the `li` children already seen. -/
def listItemLines : NodeList → String → Bool → Nat → List String
  | .nil, _, _, _ => []
  | .cons (.text _) cs, pre, ord, k => listItemLines cs pre ord k
  | .cons (.elem t _ cs') cs, pre, ord, k =>
    if jsToLower t = "li" then
      ((if ord then toString (k + 1) ++ ". " else pre) ++ jsTrim (processNodesL cs'))
        :: listItemLines cs pre ord (k + 1)
    else listItemLines cs pre ord k
termination_by structural ns => ns

/-- Row collection of `processTable` (lines 227-248): every `tr` descendant
in document order, paired with its rendered cells and with
`row.querySelector('th')` truthiness. -/
def rowsDataL : NodeList → List (List String × Bool)
  | .nil => []
  | .cons (.text _) cs => rowsDataL cs
  | .cons (.elem t _ cs') cs =>
    (if jsToLower t = "tr" then
       [(renderedCellsL cs', !(NodeList.queryAll ["th"] cs').isEmpty)]
     else [])
      ++ rowsDataL cs' ++ rowsDataL cs
termination_by structural ns => ns

/-- Cell rendering of one row: every `td`/`th` descendant in document order,
rendered by `this.processElement(cell).trim().replace(/\n/g, ' ')`. -/
def renderedCellsL : NodeList → List String
  | .nil => []
  | .cons (.text _) cs => renderedCellsL cs
  | .cons (.elem t _ cs') cs =>
    (if jsToLower t ∈ (["td", "th"] : List String) then
       [jsReplaceNl (jsTrim (processNodesL cs'))]
     else [])
      ++ renderedCellsL cs' ++ renderedCellsL cs
termination_by structural ns => ns
end

/-- Transcription of `processElement` (lines 114-129): iterate the element's child nodes.
A text node has no children, so it yields the empty string. -/
def processElement : Node → String
  | .text _ => ""
  | .elem _ _ cs => processNodesL cs

/-- Transcription of `processTable` (lines 227-248): empty string when the table has no `tr`
descendant, otherwise a newline, the rows, and a final newline. -/
def processTable : Node → String
  | .text _ => ""
  | .elem _ _ cs =>
    let rows := rowsDataL cs
    if rows = [] then "" else "\n" ++ renderRows rows ++ "\n"

/-- Transcription of `processListItems` (lines 216-225): the item lines joined by newlines. -/
def processListItems : Node → String → Bool → String
  | .text _, _, _ => ""
  | .elem _ _ cs, pre, ord => String.intercalate "\n" (listItemLines cs pre ord 0)

end ConvJs

/-! ## The Markdown emitter of `src/unnamed/part_001` (lines 215-349)

A second, independent transcription of the emitter methods of the unnamed
file, which duplicates the converter class and adds range extraction.  The
method bodies are line-for-line identical to those of `src/js/converter.js`;
claim C10 proves the two transcriptions extensionally equal. -/

/-- The sanitizer `removeUnwantedElements` (converter.js lines 107-112 =
part_001 lines 208-213; the two copies are identical): remove every
element whose tag is `script`, `style`, `meta`, `link` or `noscript`, at any
depth.  Removing an element removes its whole subtree. -/
def NodeList.removeUnwanted : NodeList → NodeList
  | .nil => .nil
  | .cons (.text s) cs => .cons (.text s) (NodeList.removeUnwanted cs)
  | .cons (.elem t a cs') cs =>
    if jsToLower t ∈ (["script", "style", "meta", "link", "noscript"] : List String) then
      NodeList.removeUnwanted cs
    else
      .cons (.elem t a (NodeList.removeUnwanted cs')) (NodeList.removeUnwanted cs)

/-- The sanitizer on a document: the document node itself is not an element
and is never removed; its descendants are filtered. -/
def removeUnwantedElements : Node → Node
  | .text s => .text s
  | .elem t a cs => .elem t a (NodeList.removeUnwanted cs)

namespace ConvUn

/-- The `rows.forEach` tail rows of `processTable` (part_001 copy). -/
def renderRowsTail : List (List String × Bool) → String
  | [] => ""
  | (cells, _) :: rest =>
    "| " ++ String.intercalate " | " cells ++ " |\n" ++ renderRowsTail rest

/-- Row rendering with the first-row separator rule (part_001 copy). -/
def renderRows : List (List String × Bool) → String
  | [] => ""
  | (cells, hasTh) :: rest =>
    "| " ++ String.intercalate " | " cells ++ " |\n"
      ++ (if hasTh then
            "| " ++ String.intercalate " | " (cells.map (fun _ => "---")) ++ " |\n"
          else "")
      ++ renderRowsTail rest

mutual
/-- The child-node loop of `processElement` (part_001 lines 215-230). -/
def processNodesL : NodeList → String
  | .nil => ""
  | .cons node cs =>
    (match node with
     | .text s =>
       let t := jsTrim s
       if t = "" then "" else t ++ " "
     | .elem _ _ _ => convertElementToMarkdown node)
      ++ processNodesL cs
termination_by structural ns => ns

/-- Transcription of `convertElementToMarkdown` (part_001 lines 232-315). -/
def convertElementToMarkdown : Node → String
  | .text _ => ""
  | .elem tag attrs cs =>
    let tagName := jsToLower tag
    let text := jsTrim (NodeList.textContent cs)
    if text = "" ∧ ¬ tagName ∈ (["br", "hr", "img"] : List String) then ""
    else if tagName = "h1" then "\n# " ++ text ++ "\n\n"
    else if tagName = "h2" then "\n## " ++ text ++ "\n\n"
    else if tagName = "h3" then "\n### " ++ text ++ "\n\n"
    else if tagName = "h4" then "\n#### " ++ text ++ "\n\n"
    else if tagName = "h5" then "\n##### " ++ text ++ "\n\n"
    else if tagName = "h6" then "\n###### " ++ text ++ "\n\n"
    else if tagName = "p" then "\n" ++ processNodesL cs ++ "\n\n"
    else if tagName = "br" then "\n"
    else if tagName = "hr" then "\n---\n\n"
    else if tagName = "strong" ∨ tagName = "b" then "**" ++ text ++ "**"
    else if tagName = "em" ∨ tagName = "i" then "*" ++ text ++ "*"
    else if tagName = "code" then "`" ++ text ++ "`"
    else if tagName = "var" then "$" ++ text ++ "$"
    else if tagName = "pre" then
      let codeText :=
        match (NodeList.queryAll ["code"] cs).head? with
        | some codeElement => codeElement.textContent
        | none => text
      "\n```\n" ++ codeText ++ "\n```\n\n"
    else if tagName = "blockquote" then "\n> " ++ processNodesL cs ++ "\n\n"
    else if tagName = "a" then
      match getAttr attrs "href" with
      | some href => if href = "" then text else "[" ++ text ++ "](" ++ href ++ ")"
      | none => text
    else if tagName = "img" then
      let alt := (getAttr attrs "alt").getD ""
      match getAttr attrs "src" with
      | some src => if src = "" then "" else "![" ++ alt ++ "](" ++ src ++ ")"
      | none => ""
    else if tagName = "ul" then
      "\n" ++ String.intercalate "\n" (listItemLines cs "- " false 0) ++ "\n"
    else if tagName = "ol" then
      "\n" ++ String.intercalate "\n" (listItemLines cs "" true 0) ++ "\n"
    else if tagName = "li" then processNodesL cs
    else if tagName = "table" then
      let rows := rowsDataL cs
      if rows = [] then "" else "\n" ++ renderRows rows ++ "\n"
    else processNodesL cs
termination_by structural n => n

/-- Transcription of the `processListItems` sweep (part_001 lines 317-326). -/
def listItemLines : NodeList → String → Bool → Nat → List String
  | .nil, _, _, _ => []
  | .cons (.text _) cs, pre, ord, k => listItemLines cs pre ord k
  | .cons (.elem t _ cs') cs, pre, ord, k =>
    if jsToLower t = "li" then
      ((if ord then toString (k + 1) ++ ". " else pre) ++ jsTrim (processNodesL cs'))
        :: listItemLines cs pre ord (k + 1)
    else listItemLines cs pre ord k
termination_by structural ns => ns

/-- Row collection of `processTable` (part_001 lines 328-349). -/
def rowsDataL : NodeList → List (List String × Bool)
  | .nil => []
  | .cons (.text _) cs => rowsDataL cs
  | .cons (.elem t _ cs') cs =>
    (if jsToLower t = "tr" then
       [(renderedCellsL cs', !(NodeList.queryAll ["th"] cs').isEmpty)]
     else [])
      ++ rowsDataL cs' ++ rowsDataL cs
termination_by structural ns => ns

/-- Cell rendering of one row (part_001 copy). -/
def renderedCellsL : NodeList → List String
  | .nil => []
  | .cons (.text _) cs => renderedCellsL cs
  | .cons (.elem t _ cs') cs =>
    (if jsToLower t ∈ (["td", "th"] : List String) then
       [jsReplaceNl (jsTrim (processNodesL cs'))]
     else [])
      ++ renderedCellsL cs' ++ renderedCellsL cs
termination_by structural ns => ns
end

/-- Transcription of `processElement` (part_001 lines 215-230). -/
def processElement : Node → String
  | .text _ => ""
  | .elem _ _ cs => processNodesL cs

/-! ### The range extractor (part_001 lines 88-213, only in this file) -/

/-- Does an element hit the start marker?  `textContent &&
textContent.includes('実行時間制限:')` — the empty string is falsy. -/
def hitsStart (e : List Nat × Node) : Bool :=
  let textContent := e.2.textContent
  if textContent = "" then false else strContains textContent "実行時間制限:"

/-- Does an element hit one of the end-marker aliases?  (part_001 lines
138-148.) -/
def hitsEnd (e : List Nat × Node) : Bool :=
  let textContent := e.2.textContent
  if textContent = "" then false
  else
    strContains textContent "Problem Statement"
      || strContains textContent "問題文"
      || strContains textContent "問題の説明"

/-- First element-node index `> i` in a child list
(`element.nextElementSibling` given the element's own child index `i`). -/
def nextElemIdxAux : List Node → Nat → Option Nat
  | [], _ => none
  | .text _ :: rest, j => nextElemIdxAux rest (j + 1)
  | .elem _ _ _ :: _, j => some j

/-- Index of the next element sibling after child index `i`. -/
def nextElemIdx (cs : NodeList) (i : Nat) : Option Nat :=
  nextElemIdxAux (cs.toList.drop (i + 1)) (i + 1)

/-- Model of `element.nextElementSibling` on reversed paths: look up the parent
(the document root when the rest of the path is empty) and take the next
element child after the element's own index. -/
def nextElemSiblingR (root : Node) : List Nat → Option (List Nat)
  | [] => none
  | i :: up =>
    match root.nodeAtR up with
    | some (.elem _ _ cs) => (nextElemIdx cs i).map (fun j => j :: up)
    | _ => none

/-- The `while (parent)` ancestor walk of `getNextElement` (lines 196-203):
try the parent's next element sibling, else move to the grandparent; the
walk stops when the parent chain reaches the document ([] here), whose
`parentElement` is null. -/
def ancestorLoop (root : Node) : List Nat → Option (List Nat)
  | [] => none
  | i :: up =>
    match nextElemSiblingR root (i :: up) with
    | some q => some q
    | none => ancestorLoop root up

/-- Transcription of `getNextElement` (part_001 lines 190-206): the element's next element
sibling, else the nearest ancestor's next element sibling. -/
def getNextElement (root : Node) (rp : List Nat) : Option (List Nat) :=
  match nextElemSiblingR root rp with
  | some q => some q
  | none =>
    match rp with
    | [] => none
    | _ :: up => ancestorLoop root up

/-- The collection loop of `extractElementsRange` (lines 177-180): walk
`getNextElement` from the start element, deep-cloning every visited element,
and stop at (excluding) the end element, compared by identity (positional
equality of reversed paths).  The walk strictly advances in document order,
so it terminates on any finite tree; the structural `fuel` argument (called
with more fuel than there are elements) makes that explicit. -/
def rangeCollect (root : Node) (endRp : List Nat) : Nat → Option (List Nat) → List Node
  | _, none => []
  | 0, some _ => []
  | fuel + 1, some rp =>
    if rp = endRp then []
    else
      match root.nodeAtR rp with
      | some n => n :: rangeCollect root endRp fuel (getNextElement root rp)
      | none => []

/-- The final `return` of `extractElementsRange` (line 187): the container
when it has at least one element child, else `null`. -/
def finalizeContainer (container : Node) : Option Node :=
  match container with
  | .text _ => none
  | .elem t a cs => if 0 < cs.countElems then some (Node.elem t a cs) else none

/-- Transcription of `extractElementsRange` (part_001 lines 160-188): deep-clone the start
element into a fresh `div` container, then clone every element reached by
`getNextElement` until the end element (exclusive). -/
def extractElementsRange (root : Node) (startRp endRp : List Nat) : Option Node :=
  let startClone := (root.nodeAtR startRp).getD (.text "")
  let elementsToInclude :=
    startClone
      :: rangeCollect root endRp ((root.elemsWP).length + 1) (getNextElement root startRp)
  finalizeContainer (Node.elem "div" [] (NodeList.ofList elementsToInclude))

/-- Transcription of `extractSpecificSection` (part_001 lines 110-158): find the first
element (in the flattened `querySelectorAll('*')` document-order list) whose
text content contains the start marker; then, strictly after it, the first
element hitting an end alias; then extract the range between them.  `null`
(here `none`) when either search fails. -/
def extractSpecificSection (doc : Node) : Option Node :=
  let allElements := doc.elemsWP
  match allElements.findIdx? hitsStart with
  | none => none
  | some i =>
    match (allElements.drop (i + 1)).find? hitsEnd with
    | none => none
    | some endE => extractElementsRange doc (allElements.getD i ([], .text "")).1 endE.1

/-- The fixed warning notice returned when extraction fails (part_001
line 99). -/
def warningMessage : String :=
  "⚠️ 警告: \"実行時間制限:\" から \"Problem Statement\" までの部分が見つかりませんでした。\n\nHTMLファイルの構造を確認してください。"

/-- Transcription of `convertHtmlToMarkdown` (part_001 lines 88-108) after parsing: sanitize,
extract the marked section, and either render it (trimmed) or return the
fixed warning notice. -/
def convertHtmlToMarkdown (doc : Node) : String :=
  let doc' := removeUnwantedElements doc
  match extractSpecificSection doc' with
  | none => warningMessage
  | some extractedContent => jsTrim (processElement extractedContent)

end ConvUn

/-! ## Derived vocabulary used to state the claims -/

/-- Model of `element.tagName` (empty for text nodes, which have none). -/
def Node.tagName : Node → String
  | .text _ => ""
  | .elem t _ _ => t

/-- The direct `li` element children of a list element
(`Array.from(listElement.children).filter(child =>
child.tagName.toLowerCase() === 'li')`). -/
def liChildren (cs : NodeList) : List Node :=
  cs.toList.filter (fun c => c.isElem && (jsToLower c.tagName == "li"))

namespace ConvJs

/-- The literal `items.map((item, index) => ...)` form of the list-item
renderer: one line per item, prefix then trimmed recursive render. -/
def liLines : List Node → String → Bool → Nat → List String
  | [], _, _, _ => []
  | item :: rest, pre, ord, k =>
    ((if ord then toString (k + 1) ++ ". " else pre) ++ jsTrim (processElement item))
      :: liLines rest pre ord (k + 1)

/-- One rendered table cell:
`this.processElement(cell).trim().replace(/\n/g, ' ')`. -/
def cellRender (c : Node) : String :=
  jsReplaceNl (jsTrim (processElement c))

/-- The rendered contents of the cells of one row:
`row.querySelectorAll('td, th')`, each rendered. -/
def cellStrings (r : Node) : List String :=
  (r.queryAll ["td", "th"]).map cellRender

/-- Model of `row.querySelector('th')` truthiness. -/
def hasThQ (r : Node) : Bool :=
  !(r.queryAll ["th"]).isEmpty

/-- One pipe-delimited output row of the table renderer. -/
def rowLine (r : Node) : String :=
  "| " ++ String.intercalate " | " (cellStrings r) ++ " |\n"

/-- The separator row emitted after a header row: one `---` per cell. -/
def sepLine (r : Node) : String :=
  "| " ++ String.intercalate " | " ((cellStrings r).map (fun _ => "---")) ++ " |\n"

/-- Concatenated plain rows (no separators). -/
def rowLines : List Node → String
  | [] => ""
  | r :: rest => rowLine r ++ rowLines rest

end ConvJs

/-! ## Mutation-log transcription of the emitter (for the frame claim)

The emitter methods of `src/js/converter.js` call only reading DOM APIs
(`childNodes`, `nodeType`, `textContent`, `tagName`, `getAttribute`,
`querySelector`, `querySelectorAll`, `children`).  To make "the emitter
never mutates its input tree" a theorem rather than a convention of the
pure embedding, the emitter is transcribed once more with every call
returning, besides its string, the list of mutation operations it performs
on the tree, in order; a reading primitive contributes no operation, and a
mutating DOM call (the kind the sanitizer and the range extractor perform)
would contribute one.  The frame claim is then: the log of every emitter
call is empty, and the string agrees with the pure transcription. -/

/-- Mutating DOM operations (the vocabulary of the mutation log). -/
inductive DomMut where
  | removeNode (target : Node)
  | appendChild (parent child : Node)
  | setText (target : Node) (s : String)
  | setAttr (target : Node) (name value : String)

namespace ConvJs

mutual
/-- Effect transcription of the `processElement` child loop. -/
def processNodesEff : NodeList → String × List DomMut
  | .nil => ("", [])
  | .cons node cs =>
    let head :=
      match node with
      | .text s =>
        let t := jsTrim s
        ((if t = "" then "" else t ++ " "), ([] : List DomMut))
      | .elem _ _ _ => convertElementToMarkdownEff node
    let rest := processNodesEff cs
    (head.1 ++ rest.1, head.2 ++ rest.2)
termination_by structural ns => ns

/-- Effect transcription of `convertElementToMarkdown`: every branch uses
reading APIs only; recursive renders propagate their logs. -/
def convertElementToMarkdownEff : Node → String × List DomMut
  | .text _ => ("", [])
  | .elem tag attrs cs =>
    let tagName := jsToLower tag
    let text := jsTrim (NodeList.textContent cs)
    if text = "" ∧ ¬ tagName ∈ (["br", "hr", "img"] : List String) then ("", [])
    else if tagName = "h1" then ("\n# " ++ text ++ "\n\n", [])
    else if tagName = "h2" then ("\n## " ++ text ++ "\n\n", [])
    else if tagName = "h3" then ("\n### " ++ text ++ "\n\n", [])
    else if tagName = "h4" then ("\n#### " ++ text ++ "\n\n", [])
    else if tagName = "h5" then ("\n##### " ++ text ++ "\n\n", [])
    else if tagName = "h6" then ("\n###### " ++ text ++ "\n\n", [])
    else if tagName = "p" then
      let r := processNodesEff cs
      ("\n" ++ r.1 ++ "\n\n", r.2)
    else if tagName = "br" then ("\n", [])
    else if tagName = "hr" then ("\n---\n\n", [])
    else if tagName = "strong" ∨ tagName = "b" then ("**" ++ text ++ "**", [])
    else if tagName = "em" ∨ tagName = "i" then ("*" ++ text ++ "*", [])
    else if tagName = "code" then ("`" ++ text ++ "`", [])
    else if tagName = "var" then ("$" ++ text ++ "$", [])
    else if tagName = "pre" then
      let codeText :=
        match (NodeList.queryAll ["code"] cs).head? with
        | some codeElement => codeElement.textContent
        | none => text
      ("\n```\n" ++ codeText ++ "\n```\n\n", [])
    else if tagName = "blockquote" then
      let r := processNodesEff cs
      ("\n> " ++ r.1 ++ "\n\n", r.2)
    else if tagName = "a" then
      (match getAttr attrs "href" with
       | some href => if href = "" then text else "[" ++ text ++ "](" ++ href ++ ")"
       | none => text, [])
    else if tagName = "img" then
      let alt := (getAttr attrs "alt").getD ""
      (match getAttr attrs "src" with
       | some src => if src = "" then "" else "![" ++ alt ++ "](" ++ src ++ ")"
       | none => "", [])
    else if tagName = "ul" then
      let r := listItemLinesEff cs "- " false 0
      ("\n" ++ String.intercalate "\n" r.1 ++ "\n", r.2)
    else if tagName = "ol" then
      let r := listItemLinesEff cs "" true 0
      ("\n" ++ String.intercalate "\n" r.1 ++ "\n", r.2)
    else if tagName = "li" then processNodesEff cs
    else if tagName = "table" then
      let r := rowsDataEff cs
      (if r.1 = [] then "" else "\n" ++ renderRows r.1 ++ "\n", r.2)
    else processNodesEff cs
termination_by structural n => n

/-- Effect transcription of the list-item sweep. -/
def listItemLinesEff : NodeList → String → Bool → Nat → List String × List DomMut
  | .nil, _, _, _ => ([], [])
  | .cons (.text _) cs, pre, ord, k => listItemLinesEff cs pre ord k
  | .cons (.elem t _ cs') cs, pre, ord, k =>
    if jsToLower t = "li" then
      let item := processNodesEff cs'
      let rest := listItemLinesEff cs pre ord (k + 1)
      (((if ord then toString (k + 1) ++ ". " else pre) ++ jsTrim item.1) :: rest.1,
        item.2 ++ rest.2)
    else listItemLinesEff cs pre ord k
termination_by structural ns => ns

/-- Effect transcription of the table-row sweep. -/
def rowsDataEff : NodeList → List (List String × Bool) × List DomMut
  | .nil => ([], [])
  | .cons (.text _) cs => rowsDataEff cs
  | .cons (.elem t _ cs') cs =>
    let here :=
      if jsToLower t = "tr" then
        let cells := renderedCellsEff cs'
        ([(cells.1, !(NodeList.queryAll ["th"] cs').isEmpty)], cells.2)
      else ([], [])
    let deeper := rowsDataEff cs'
    let rest := rowsDataEff cs
    (here.1 ++ deeper.1 ++ rest.1, here.2 ++ deeper.2 ++ rest.2)
termination_by structural ns => ns

/-- Effect transcription of the cell sweep. -/
def renderedCellsEff : NodeList → List String × List DomMut
  | .nil => ([], [])
  | .cons (.text _) cs => renderedCellsEff cs
  | .cons (.elem t _ cs') cs =>
    let here :=
      if jsToLower t ∈ (["td", "th"] : List String) then
        let cell := processNodesEff cs'
        ([jsReplaceNl (jsTrim cell.1)], cell.2)
      else ([], [])
    let deeper := renderedCellsEff cs'
    let rest := renderedCellsEff cs
    (here.1 ++ deeper.1 ++ rest.1, here.2 ++ deeper.2 ++ rest.2)
termination_by structural ns => ns
end

/-- Effect transcription of `processElement`. -/
def processElementEff : Node → String × List DomMut
  | .text _ => ("", [])
  | .elem _ _ cs => processNodesEff cs

end ConvJs

/-! ## Concrete sample inputs (used by the witnesses) -/

/-- A two-item list: `<ul><li>a</li><li></li></ul>`. -/
def sampleUlChildren : NodeList :=
  .cons (.elem "li" [] (.cons (.text "a") .nil)) (.cons (.elem "li" [] .nil) .nil)

/-- Header row of the spec's example table: `<tr><th>A</th><th>B</th></tr>`. -/
def sampleRow1 : Node :=
  .elem "tr" [] (.cons (.elem "th" [] (.cons (.text "A") .nil))
                 (.cons (.elem "th" [] (.cons (.text "B") .nil)) .nil))

/-- Data row of the spec's example table: `<tr><td>1</td><td>2</td></tr>`. -/
def sampleRow2 : Node :=
  .elem "tr" [] (.cons (.elem "td" [] (.cons (.text "1") .nil))
                 (.cons (.elem "td" [] (.cons (.text "2") .nil)) .nil))

/-- Children of the spec's example table:
`<table><tr><th>A</th><th>B</th></tr><tr><td>1</td><td>2</td></tr></table>`. -/
def sampleTableChildren : NodeList :=
  .cons sampleRow1 (.cons sampleRow2 .nil)

/-- A document whose `div` (and hence every ancestor) contains the start
marker, and that contains no end-marker alias. -/
def sampleDocNoEnd : Node :=
  .elem "#document" [] (.cons (.elem "html" []
    (.cons (.elem "div" [] (.cons (.text "実行時間制限: 2 sec") .nil)) .nil)) .nil)

/-- A `div` holding the start marker (nested inside `sampleHtmlBoth`). -/
def sampleDivBoth : Node :=
  .elem "div" [] (.cons (.text "実行時間制限: 2 sec") .nil)

/-- The root element of `sampleDocBoth`: a `html` holding a `div` with the
start marker and a later `h2` with an end alias. -/
def sampleHtmlBoth : Node :=
  .elem "html" []
    (.cons sampleDivBoth
    (.cons (.elem "h2" [] (.cons (.text "問題文") .nil))
    .nil))

/-- A document with the start marker in a nested `div` and an end-marker
alias in a later sibling. -/
def sampleDocBoth : Node :=
  .elem "#document" [] (.cons sampleHtmlBoth .nil)

/-- A document with no element at all (empty body). -/
def sampleDocEmpty : Node :=
  .elem "#document" [] .nil

/-! # Theorems -/

/-! ## Specification of the string primitives -/

theorem isPre_iff (p l : List Char) : isPre p l = true ↔ ∃ t, l = p ++ t := by
  induction p generalizing l with
  | nil => simp [isPre]
  | cons a as ih =>
    cases l with
    | nil => simp [isPre]
    | cons b bs =>
      simp only [isPre, Bool.and_eq_true, beq_iff_eq, ih]
      constructor
      · rintro ⟨rfl, t, rfl⟩; exact ⟨t, rfl⟩
      · rintro ⟨t, h⟩
        cases h
        exact ⟨rfl, t, rfl⟩

theorem hasSeg_iff (p l : List Char) : hasSeg p l = true ↔ SegIn p l := by
  induction l with
  | nil =>
    simp only [hasSeg, isPre_iff, SegIn]
    constructor
    · rintro ⟨t, h⟩
      exact ⟨[], t, by simpa using h⟩
    · rintro ⟨s, t, h⟩
      have h' := h.symm
      simp only [List.append_eq_nil] at h'
      exact ⟨[], by simp [h'.1.2]⟩
  | cons c rest ih =>
    simp only [hasSeg, Bool.or_eq_true, isPre_iff, ih, SegIn]
    constructor
    · rintro (⟨t, h⟩ | ⟨s, t, h⟩)
      · exact ⟨[], t, by simpa using h⟩
      · exact ⟨c :: s, t, by simp [h]⟩
    · rintro ⟨s, t, h⟩
      cases s with
      | nil => exact Or.inl ⟨t, by simpa using h⟩
      | cons x xs =>
        simp only [List.cons_append] at h
        cases h
        exact Or.inr ⟨xs, t, rfl⟩

theorem strContains_iff (s m : String) :
    strContains s m = true ↔ SegIn m.data s.data := by
  simpa [strContains] using hasSeg_iff m.data s.data

theorem SegIn.trans_seg {a b c : List Char} (h₁ : SegIn a b) (h₂ : SegIn b c) :
    SegIn a c := by
  obtain ⟨s₁, t₁, rfl⟩ := h₁
  obtain ⟨s₂, t₂, rfl⟩ := h₂
  exact ⟨s₂ ++ s₁, t₁ ++ t₂, by simp⟩

theorem SegIn.ne_nil {a b : List Char} (h : SegIn a b) (ha : a ≠ []) : b ≠ [] := by
  obtain ⟨s, t, rfl⟩ := h
  simp_all

theorem string_ne_empty_iff_data (s : String) : s ≠ "" ↔ s.data ≠ [] := by
  cases s
  simp [String.ext_iff]

/-! ## C6: the sanitizer is idempotent -/

theorem NodeList.removeUnwanted_idem :
    ∀ cs : NodeList, NodeList.removeUnwanted (NodeList.removeUnwanted cs)
      = NodeList.removeUnwanted cs
  | .nil => rfl
  | .cons (.text s) cs => by
    simp [NodeList.removeUnwanted, NodeList.removeUnwanted_idem cs]
  | .cons (.elem t a cs') cs => by
    by_cases h : jsToLower t ∈ (["script", "style", "meta", "link", "noscript"] : List String)
    · simp [NodeList.removeUnwanted, h, NodeList.removeUnwanted_idem cs]
    · simp [NodeList.removeUnwanted, h, NodeList.removeUnwanted_idem cs,
        NodeList.removeUnwanted_idem cs']

/-- C6: the Sanitizer is idempotent: for every document tree, running the
Sanitizer a second time on an already-sanitized tree produces no further
change to the tree. -/
theorem c6_sanitizer_idempotent (doc : Node) :
    removeUnwantedElements (removeUnwantedElements doc) = removeUnwantedElements doc := by
  cases doc with
  | text s => rfl
  | elem t a cs =>
    simp [removeUnwantedElements, NodeList.removeUnwanted_idem cs]

/-! ## C4: empty-text suppression with the br/hr/img exception -/

/-- C4: an element whose trimmed text content is empty emits the empty
string unless its tag is `br`, `hr` or `img`; `br` and `hr` still render
their fixed output, and an `img` without a `src` attribute emits the empty
string even though it has no text content. -/
theorem c4_empty_text_suppression (tag : String) (attrs : List (String × String))
    (cs : NodeList) (hempty : jsTrim (NodeList.textContent cs) = "") :
    (¬ jsToLower tag ∈ (["br", "hr", "img"] : List String) →
        ConvJs.convertElementToMarkdown (.elem tag attrs cs) = "")
    ∧ (jsToLower tag = "br" → ConvJs.convertElementToMarkdown (.elem tag attrs cs) = "\n")
    ∧ (jsToLower tag = "hr" →
        ConvJs.convertElementToMarkdown (.elem tag attrs cs) = "\n---\n\n")
    ∧ (jsToLower tag = "img" → getAttr attrs "src" = none →
        ConvJs.convertElementToMarkdown (.elem tag attrs cs) = "") := by
  refine ⟨fun hmem => ?_, fun hbr => ?_, fun hhr => ?_, fun himg hsrc => ?_⟩
  · simp [ConvJs.convertElementToMarkdown, hempty, hmem]
  · simp [ConvJs.convertElementToMarkdown, hempty, hbr]
  · simp [ConvJs.convertElementToMarkdown, hempty, hhr]
  · simp [ConvJs.convertElementToMarkdown, hempty, himg, hsrc]

theorem c4_witness :
    (jsTrim (NodeList.textContent .nil) = ""
      ∧ ¬ jsToLower "div" ∈ (["br", "hr", "img"] : List String))
    ∧ ConvJs.convertElementToMarkdown (.elem "div" [] .nil) = ""
    ∧ ConvJs.convertElementToMarkdown (.elem "br" [] .nil) = "\n"
    ∧ ConvJs.convertElementToMarkdown (.elem "hr" [] .nil) = "\n---\n\n"
    ∧ ConvJs.convertElementToMarkdown (.elem "img" [] .nil) = "" :=
  ⟨⟨by decide, by decide⟩,
    (c4_empty_text_suppression "div" [] .nil (by decide)).1 (by decide),
    (c4_empty_text_suppression "br" [] .nil (by decide)).2.1 (by decide),
    (c4_empty_text_suppression "hr" [] .nil (by decide)).2.2.1 (by decide),
    (c4_empty_text_suppression "img" [] .nil (by decide)).2.2.2 (by decide) (by decide)⟩

/-! ## C9: list rendering emits one line per direct li child -/

theorem ConvJs.liLines_length :
    ∀ (items : List Node) (pre : String) (ord : Bool) (k : Nat),
      (ConvJs.liLines items pre ord k).length = items.length
  | [], _, _, _ => rfl
  | _ :: rest, pre, ord, k => by
    simp [ConvJs.liLines, ConvJs.liLines_length rest pre ord (k + 1)]

theorem ConvJs.listItemLines_eq_liLines :
    ∀ (cs : NodeList) (pre : String) (ord : Bool) (k : Nat),
      ConvJs.listItemLines cs pre ord k = ConvJs.liLines (liChildren cs) pre ord k
  | .nil, _, _, _ => rfl
  | .cons (.text s) cs, pre, ord, k => by
    simpa [liChildren, NodeList.toList, Node.isElem] using
      ConvJs.listItemLines_eq_liLines cs pre ord k
  | .cons (.elem t a cs') cs, pre, ord, k => by
    by_cases h : jsToLower t = "li"
    · simp [ConvJs.listItemLines, liChildren, NodeList.toList, Node.isElem, Node.tagName, h,
        ConvJs.liLines, ConvJs.processElement,
        ConvJs.listItemLines_eq_liLines cs pre ord (k + 1)]
    · simpa [ConvJs.listItemLines, liChildren, NodeList.toList, Node.isElem, Node.tagName, h]
        using ConvJs.listItemLines_eq_liLines cs pre ord k

/-- C9: for a `ul` or `ol` whose trimmed text content is non-empty, the
rendering is one line per direct `li` child — the empty-text suppression
rule is not applied to list items, so an `li` whose own render is empty
still yields a line consisting of just its bullet or number prefix. -/
theorem c9_list_lines_per_li (attrs : List (String × String)) (cs : NodeList)
    (h : jsTrim (NodeList.textContent cs) ≠ "") :
    (ConvJs.convertElementToMarkdown (.elem "ul" attrs cs)
      = "\n" ++ String.intercalate "\n" (ConvJs.listItemLines cs "- " false 0) ++ "\n")
    ∧ (ConvJs.convertElementToMarkdown (.elem "ol" attrs cs)
      = "\n" ++ String.intercalate "\n" (ConvJs.listItemLines cs "" true 0) ++ "\n")
    ∧ (∀ pre ord k, ConvJs.listItemLines cs pre ord k
        = ConvJs.liLines (liChildren cs) pre ord k)
    ∧ (∀ pre ord k, (ConvJs.listItemLines cs pre ord k).length = (liChildren cs).length)
    ∧ (∀ item rest pre k, jsTrim (ConvJs.processElement item) = "" →
        ConvJs.liLines (item :: rest) pre false k
          = pre :: ConvJs.liLines rest pre false (k + 1))
    ∧ (∀ item rest pre k, jsTrim (ConvJs.processElement item) = "" →
        ConvJs.liLines (item :: rest) pre true k
          = (toString (k + 1) ++ ". ") :: ConvJs.liLines rest pre true (k + 1)) := by
  refine ⟨?_, ?_, fun pre ord k => ConvJs.listItemLines_eq_liLines cs pre ord k,
    fun pre ord k => ?_, fun item rest pre k hi => ?_, fun item rest pre k hi => ?_⟩
  · simp [ConvJs.convertElementToMarkdown, h, show jsToLower "ul" = "ul" from by decide]
  · simp [ConvJs.convertElementToMarkdown, h, show jsToLower "ol" = "ol" from by decide]
  · rw [ConvJs.listItemLines_eq_liLines cs pre ord k,
      ConvJs.liLines_length (liChildren cs) pre ord k]
  · simp [ConvJs.liLines, hi]
  · simp [ConvJs.liLines, hi]

theorem c9_witness :
    jsTrim (NodeList.textContent sampleUlChildren) ≠ ""
    ∧ ConvJs.convertElementToMarkdown (.elem "ul" [] sampleUlChildren) = "\n- a\n- \n"
    ∧ (ConvJs.listItemLines sampleUlChildren "- " false 0).length = 2 := by
  refine ⟨by decide, ?_, ?_⟩
  · rw [(c9_list_lines_per_li [] sampleUlChildren (by decide)).1]
    decide
  · rw [(c9_list_lines_per_li [] sampleUlChildren (by decide)).2.2.2.1 "- " false 0]
    decide

/-! ## C5: the table renderer -/

theorem ConvJs.renderedCellsL_eq_queryAll :
    ∀ cs : NodeList,
      ConvJs.renderedCellsL cs = (NodeList.queryAll ["td", "th"] cs).map ConvJs.cellRender
  | .nil => rfl
  | .cons (.text s) cs => by
    simpa [ConvJs.renderedCellsL, NodeList.queryAll] using
      ConvJs.renderedCellsL_eq_queryAll cs
  | .cons (.elem t a cs') cs => by
    by_cases h : jsToLower t ∈ (["td", "th"] : List String)
    · simp [ConvJs.renderedCellsL, NodeList.queryAll, h, ConvJs.cellRender,
        ConvJs.processElement, ConvJs.renderedCellsL_eq_queryAll cs',
        ConvJs.renderedCellsL_eq_queryAll cs]
    · simp [ConvJs.renderedCellsL, NodeList.queryAll, h,
        ConvJs.renderedCellsL_eq_queryAll cs', ConvJs.renderedCellsL_eq_queryAll cs]

theorem ConvJs.rowsDataL_eq_queryAll :
    ∀ cs : NodeList,
      ConvJs.rowsDataL cs
        = (NodeList.queryAll ["tr"] cs).map (fun r => (ConvJs.cellStrings r, ConvJs.hasThQ r))
  | .nil => rfl
  | .cons (.text s) cs => by
    simpa [ConvJs.rowsDataL, NodeList.queryAll] using ConvJs.rowsDataL_eq_queryAll cs
  | .cons (.elem t a cs') cs => by
    by_cases h : jsToLower t = "tr"
    · simp [ConvJs.rowsDataL, NodeList.queryAll, h, ConvJs.cellStrings, ConvJs.hasThQ,
        Node.queryAll, ConvJs.renderedCellsL_eq_queryAll cs',
        ConvJs.rowsDataL_eq_queryAll cs', ConvJs.rowsDataL_eq_queryAll cs]
    · simp [ConvJs.rowsDataL, NodeList.queryAll, h,
        ConvJs.rowsDataL_eq_queryAll cs', ConvJs.rowsDataL_eq_queryAll cs]

theorem ConvJs.renderRowsTail_map :
    ∀ rs : List Node,
      ConvJs.renderRowsTail (rs.map (fun r => (ConvJs.cellStrings r, ConvJs.hasThQ r)))
        = ConvJs.rowLines rs
  | [] => rfl
  | r :: rest => by
    simp [ConvJs.renderRowsTail, ConvJs.rowLines, ConvJs.rowLine,
      ConvJs.renderRowsTail_map rest]

/-- C5: the table renderer emits one pipe-delimited row per `tr` collected at
any depth in document order; immediately after the first row it emits a
separator row with one `---` per cell exactly when that row contains a `th`
cell; a table with no `tr` rows renders as the empty string. -/
theorem c5_table_rendering (tag : String) (attrs : List (String × String)) (cs : NodeList) :
    (NodeList.queryAll ["tr"] cs = [] → ConvJs.processTable (.elem tag attrs cs) = "")
    ∧ (∀ r rs, NodeList.queryAll ["tr"] cs = r :: rs →
        ConvJs.processTable (.elem tag attrs cs)
          = "\n" ++ (ConvJs.rowLine r
              ++ (if ConvJs.hasThQ r then ConvJs.sepLine r else "")
              ++ ConvJs.rowLines rs) ++ "\n") := by
  constructor
  · intro h0
    simp [ConvJs.processTable, ConvJs.rowsDataL_eq_queryAll cs, h0]
  · intro r rs hr
    simp only [ConvJs.processTable, ConvJs.rowsDataL_eq_queryAll cs, hr, List.map_cons]
    rw [if_neg (by simp)]
    simp [ConvJs.renderRows, ConvJs.rowLine, ConvJs.sepLine,
      ConvJs.renderRowsTail_map rs, String.append_assoc]

theorem c5_witness :
    (NodeList.queryAll ["tr"] sampleTableChildren = sampleRow1 :: [sampleRow2]
      ∧ ConvJs.hasThQ sampleRow1 = true)
    ∧ ConvJs.processTable (.elem "table" [] sampleTableChildren)
        = "\n| A | B |\n| --- | --- |\n| 1 | 2 |\n\n"
    ∧ ConvJs.processTable (.elem "table" [] .nil) = "" := by
  refine ⟨⟨by decide, by decide⟩, ?_, ?_⟩
  · rw [(c5_table_rendering "table" [] sampleTableChildren).2 sampleRow1 [sampleRow2]
      (by decide)]
    decide
  · exact (c5_table_rendering "table" [] .nil).1 (by decide)

/-! ## C10: the two emitter copies agree -/

theorem renderRowsTail_agree :
    ∀ rows, ConvJs.renderRowsTail rows = ConvUn.renderRowsTail rows
  | [] => rfl
  | (cells, hasTh) :: rest => by
    simp [ConvJs.renderRowsTail, ConvUn.renderRowsTail, renderRowsTail_agree rest]

theorem renderRows_agree :
    ∀ rows, ConvJs.renderRows rows = ConvUn.renderRows rows
  | [] => rfl
  | (cells, hasTh) :: rest => by
    simp [ConvJs.renderRows, ConvUn.renderRows, renderRowsTail_agree rest]

mutual
theorem processNodesL_agree :
    ∀ cs : NodeList, ConvJs.processNodesL cs = ConvUn.processNodesL cs
  | .nil => rfl
  | .cons c cs => by
    cases c with
    | text s =>
      simp [ConvJs.processNodesL, ConvUn.processNodesL, processNodesL_agree cs]
    | elem t a cs' =>
      simp [ConvJs.processNodesL, ConvUn.processNodesL, processNodesL_agree cs,
        convertElementToMarkdown_agree (Node.elem t a cs')]

theorem convertElementToMarkdown_agree :
    ∀ n : Node, ConvJs.convertElementToMarkdown n = ConvUn.convertElementToMarkdown n
  | .text _ => rfl
  | .elem t a cs => by
    simp only [ConvJs.convertElementToMarkdown, ConvUn.convertElementToMarkdown,
      processNodesL_agree cs, listItemLines_agree cs, rowsDataL_agree cs,
      renderRows_agree]

theorem listItemLines_agree :
    ∀ (cs : NodeList) (pre : String) (ord : Bool) (k : Nat),
      ConvJs.listItemLines cs pre ord k = ConvUn.listItemLines cs pre ord k
  | .nil, _, _, _ => rfl
  | .cons (.text _) cs, pre, ord, k => by
    simp [ConvJs.listItemLines, ConvUn.listItemLines, listItemLines_agree cs pre ord k]
  | .cons (.elem t a cs') cs, pre, ord, k => by
    by_cases h : jsToLower t = "li"
    · simp [ConvJs.listItemLines, ConvUn.listItemLines, h, processNodesL_agree cs',
        listItemLines_agree cs pre ord (k + 1)]
    · simp [ConvJs.listItemLines, ConvUn.listItemLines, h,
        listItemLines_agree cs pre ord k]

theorem rowsDataL_agree :
    ∀ cs : NodeList, ConvJs.rowsDataL cs = ConvUn.rowsDataL cs
  | .nil => rfl
  | .cons (.text _) cs => by
    simp [ConvJs.rowsDataL, ConvUn.rowsDataL, rowsDataL_agree cs]
  | .cons (.elem t a cs') cs => by
    simp [ConvJs.rowsDataL, ConvUn.rowsDataL, rowsDataL_agree cs, rowsDataL_agree cs',
      renderedCellsL_agree cs']

theorem renderedCellsL_agree :
    ∀ cs : NodeList, ConvJs.renderedCellsL cs = ConvUn.renderedCellsL cs
  | .nil => rfl
  | .cons (.text _) cs => by
    simp [ConvJs.renderedCellsL, ConvUn.renderedCellsL, renderedCellsL_agree cs]
  | .cons (.elem t a cs') cs => by
    simp [ConvJs.renderedCellsL, ConvUn.renderedCellsL, renderedCellsL_agree cs,
      renderedCellsL_agree cs', processNodesL_agree cs']
end

/-- C10: the two Markdown-emitter copies are extensionally equal: on every
node, `processElement` and `convertElementToMarkdown` of
`src/js/converter.js` and of `src/unnamed/part_001` produce the identical
Markdown string. -/
theorem c10_emitters_extensionally_equal (n : Node) :
    ConvJs.processElement n = ConvUn.processElement n
    ∧ ConvJs.convertElementToMarkdown n = ConvUn.convertElementToMarkdown n := by
  constructor
  · cases n with
    | text s => rfl
    | elem t a cs =>
      simpa [ConvJs.processElement, ConvUn.processElement] using processNodesL_agree cs
  · exact convertElementToMarkdown_agree n

/-! ## C7: the emitter performs no mutation -/

theorem ite_pair_eq {α β : Type} (c : Prop) [Decidable c] (a₁ : α) (a₂ : β) (b₁ : α)
    (b₂ : β) :
    (if c then (a₁, a₂) else (b₁, b₂)) = ((if c then a₁ else b₁), if c then a₂ else b₂) := by
  split_ifs <;> rfl

set_option maxHeartbeats 1600000 in
mutual
theorem processNodesEff_spec :
    ∀ cs : NodeList, ConvJs.processNodesEff cs = (ConvJs.processNodesL cs, [])
  | .nil => rfl
  | .cons c cs => by
    cases c with
    | text s =>
      simp [ConvJs.processNodesEff, ConvJs.processNodesL, processNodesEff_spec cs]
    | elem t a cs' =>
      simp [ConvJs.processNodesEff, ConvJs.processNodesL, processNodesEff_spec cs,
        convertElementToMarkdownEff_spec (Node.elem t a cs')]

theorem convertElementToMarkdownEff_spec :
    ∀ n : Node,
      ConvJs.convertElementToMarkdownEff n = (ConvJs.convertElementToMarkdown n, [])
  | .text _ => rfl
  | .elem t a cs => by
    simp only [ConvJs.convertElementToMarkdownEff, ConvJs.convertElementToMarkdown,
      processNodesEff_spec cs, listItemLinesEff_spec cs "- " false 0,
      listItemLinesEff_spec cs "" true 0, rowsDataEff_spec cs]
    simp only [ite_pair_eq, ite_self]

theorem listItemLinesEff_spec :
    ∀ (cs : NodeList) (pre : String) (ord : Bool) (k : Nat),
      ConvJs.listItemLinesEff cs pre ord k = (ConvJs.listItemLines cs pre ord k, [])
  | .nil, _, _, _ => rfl
  | .cons (.text _) cs, pre, ord, k => by
    simp [ConvJs.listItemLinesEff, ConvJs.listItemLines, listItemLinesEff_spec cs pre ord k]
  | .cons (.elem t a cs') cs, pre, ord, k => by
    by_cases h : jsToLower t = "li"
    · simp [ConvJs.listItemLinesEff, ConvJs.listItemLines, h, processNodesEff_spec cs',
        listItemLinesEff_spec cs pre ord (k + 1)]
    · simp [ConvJs.listItemLinesEff, ConvJs.listItemLines, h,
        listItemLinesEff_spec cs pre ord k]

theorem rowsDataEff_spec :
    ∀ cs : NodeList, ConvJs.rowsDataEff cs = (ConvJs.rowsDataL cs, [])
  | .nil => rfl
  | .cons (.text _) cs => by
    simp [ConvJs.rowsDataEff, ConvJs.rowsDataL, rowsDataEff_spec cs]
  | .cons (.elem t a cs') cs => by
    by_cases h : jsToLower t = "tr"
    · simp [ConvJs.rowsDataEff, ConvJs.rowsDataL, h, renderedCellsEff_spec cs',
        rowsDataEff_spec cs', rowsDataEff_spec cs]
    · simp [ConvJs.rowsDataEff, ConvJs.rowsDataL, h, rowsDataEff_spec cs',
        rowsDataEff_spec cs]

theorem renderedCellsEff_spec :
    ∀ cs : NodeList, ConvJs.renderedCellsEff cs = (ConvJs.renderedCellsL cs, [])
  | .nil => rfl
  | .cons (.text _) cs => by
    simp [ConvJs.renderedCellsEff, ConvJs.renderedCellsL, renderedCellsEff_spec cs]
  | .cons (.elem t a cs') cs => by
    by_cases h : jsToLower t ∈ (["td", "th"] : List String)
    · simp [ConvJs.renderedCellsEff, ConvJs.renderedCellsL, h, processNodesEff_spec cs',
        renderedCellsEff_spec cs', renderedCellsEff_spec cs]
    · simp [ConvJs.renderedCellsEff, ConvJs.renderedCellsL, h, renderedCellsEff_spec cs',
        renderedCellsEff_spec cs]
end

/-- C7: the Markdown emitter leaves its input tree entirely unchanged: in
the effect transcription, where every mutating DOM operation would be
logged, `processElement` and `convertElementToMarkdown` perform no mutation
operation at all (their logs are empty) while computing exactly the output
of the pure emitter. -/
theorem c7_emitter_no_mutation (n : Node) :
    ConvJs.processElementEff n = (ConvJs.processElement n, ([] : List DomMut))
    ∧ ConvJs.convertElementToMarkdownEff n
        = (ConvJs.convertElementToMarkdown n, ([] : List DomMut)) := by
  constructor
  · cases n with
    | text s => rfl
    | elem t a cs =>
      simpa [ConvJs.processElementEff, ConvJs.processElement] using processNodesEff_spec cs
  · exact convertElementToMarkdownEff_spec n

/-! ## C2: start marker present, no end alias after it -/

/-- C2: when some element hits the start marker (the search succeeds at
index `i`) but no element strictly after the start element in the flattened
document-order list hits any end-marker alias, scoped conversion returns the
fixed warning notice as a normal value — the conversion function is total,
no exception path exists, and no partial Markdown is produced. -/
theorem c2_no_end_alias_warning (doc : Node) (i : Nat)
    (h1 : ((removeUnwantedElements doc).elemsWP).findIdx? ConvUn.hitsStart = some i)
    (h2 : ∀ e ∈ ((removeUnwantedElements doc).elemsWP).drop (i + 1),
        ConvUn.hitsEnd e = false) :
    ConvUn.convertHtmlToMarkdown doc = ConvUn.warningMessage := by
  have hfind :
      (((removeUnwantedElements doc).elemsWP).drop (i + 1)).find? ConvUn.hitsEnd = none :=
    List.find?_eq_none.mpr (fun x hx => by simp [h2 x hx])
  simp [ConvUn.convertHtmlToMarkdown, ConvUn.extractSpecificSection, h1, hfind]

theorem c2_witness :
    ((removeUnwantedElements sampleDocNoEnd).elemsWP).findIdx? ConvUn.hitsStart = some 0
    ∧ (∀ e ∈ ((removeUnwantedElements sampleDocNoEnd).elemsWP).drop 1,
        ConvUn.hitsEnd e = false)
    ∧ ConvUn.convertHtmlToMarkdown sampleDocNoEnd = ConvUn.warningMessage :=
  ⟨by decide, by decide, c2_no_end_alias_warning sampleDocNoEnd 0 (by decide) (by decide)⟩

/-! ## C8: an empty container is treated as not-found -/

/-- C8: the final branch of the extractor maps a container with no element
child to `null`, and a `null` extraction result makes scoped conversion
return the same fixed warning notice as the not-found cases — never a
successful Markdown string. -/
theorem c8_empty_container_warning (t : String) (a : List (String × String))
    (cs : NodeList) (doc : Node) (hc : cs.countElems = 0)
    (hnone : ConvUn.extractSpecificSection (removeUnwantedElements doc) = none) :
    ConvUn.finalizeContainer (.elem t a cs) = none
    ∧ ConvUn.convertHtmlToMarkdown doc = ConvUn.warningMessage := by
  constructor
  · simp [ConvUn.finalizeContainer, hc]
  · simp [ConvUn.convertHtmlToMarkdown, hnone]

theorem c8_witness :
    NodeList.countElems .nil = 0
    ∧ ConvUn.extractSpecificSection (removeUnwantedElements sampleDocEmpty) = none
    ∧ ConvUn.finalizeContainer (.elem "div" [] .nil) = none
    ∧ ConvUn.convertHtmlToMarkdown sampleDocEmpty = ConvUn.warningMessage :=
  ⟨by decide, by decide,
    (c8_empty_container_warning "div" [] .nil sampleDocEmpty (by decide) (by decide)).1,
    (c8_empty_container_warning "div" [] .nil sampleDocEmpty (by decide) (by decide)).2⟩

/-! ## Locating `elemsWP` members in the tree -/

theorem nodeAtR_elem_append (t : String) (a : List (String × String)) (cs : NodeList)
    (q : List Nat) (i : Nat) :
    Node.nodeAtR (.elem t a cs) (q ++ [i])
      = match cs.get? i with
        | some c => Node.nodeAtR c q
        | none => none := by
  cases hc : cs.get? i <;>
    simp [Node.nodeAtR, List.reverse_append, Node.nodeAtF, hc]

mutual
theorem memWP_list :
    ∀ (cs : NodeList) (i₀ : Nat) (p : List Nat) (m : Node),
      (p, m) ∈ NodeList.elemsWP cs i₀ →
      ∃ q j c, p = q ++ [j] ∧ i₀ ≤ j ∧ cs.get? (j - i₀) = some c
        ∧ Node.nodeAtR c q = some m ∧ m.isElem = true
  | .nil, _, _, _, h => absurd h (by simp [NodeList.elemsWP])
  | .cons (.text s) cs, i₀, p, m, h => by
    obtain ⟨q, j, c, hp, hj, hget, hat, hel⟩ :=
      memWP_list cs (i₀ + 1) p m (by simpa [NodeList.elemsWP] using h)
    refine ⟨q, j, c, hp, by omega, ?_, hat, hel⟩
    have hidx : j - i₀ = (j - (i₀ + 1)) + 1 := by omega
    rw [hidx]
    simpa [NodeList.get?] using hget
  | .cons (.elem t a cs') cs, i₀, p, m, h => by
    rw [NodeList.elemsWP] at h
    rcases List.mem_cons.mp h with heq | hrest
    · obtain ⟨hp, hm⟩ := Prod.mk.injEq .. ▸ heq
      refine ⟨[], i₀, .elem t a cs', hp.symm ▸ rfl, le_refl _, by simp [NodeList.get?], ?_, ?_⟩
      · simp [Node.nodeAtR, Node.nodeAtF, hm]
      · simp [hm, Node.isElem]
    · rcases List.mem_append.mp hrest with hmid | htail
      · obtain ⟨⟨q', m'⟩, hqm, heq⟩ := List.mem_map.mp hmid
        obtain ⟨hp, hm⟩ := Prod.mk.injEq .. ▸ heq
        obtain ⟨hat, hel⟩ :=
          memWP_node (Node.elem t a cs') q' m' (by simpa [Node.elemsWP] using hqm)
        exact ⟨q', i₀, .elem t a cs', hp.symm ▸ rfl, le_refl _, by simp [NodeList.get?],
          hm ▸ hat, hm ▸ hel⟩
      · obtain ⟨q, j, c, hp, hj, hget, hat, hel⟩ := memWP_list cs (i₀ + 1) p m htail
        refine ⟨q, j, c, hp, by omega, ?_, hat, hel⟩
        have hidx : j - i₀ = (j - (i₀ + 1)) + 1 := by omega
        rw [hidx]
        simpa [NodeList.get?] using hget

theorem memWP_node :
    ∀ (n : Node) (p : List Nat) (m : Node),
      (p, m) ∈ n.elemsWP → n.nodeAtR p = some m ∧ m.isElem = true
  | .text _, _, _, h => absurd h (by simp [Node.elemsWP])
  | .elem t a cs, p, m, h => by
    obtain ⟨q, j, c, rfl, hj, hget, hat, hel⟩ :=
      memWP_list cs 0 p m (by simpa [Node.elemsWP] using h)
    rw [nodeAtR_elem_append]
    rw [Nat.sub_zero] at hget
    rw [hget]
    exact ⟨hat, hel⟩
end

/-! ## A specification of `List.findIdx?` -/

theorem findIdx?_spec {α : Type} (p : α → Bool) :
    ∀ (l : List α) (s i : Nat), List.findIdx? p l s = some i →
      s ≤ i ∧ i - s < l.length
        ∧ ∃ x, l.get? (i - s) = some x ∧ p x = true
  | [], s, i, h => by simp at h
  | a :: l, s, i, h => by
    rw [List.findIdx?_cons] at h
    by_cases ha : p a
    · simp only [ha, if_true, Option.some.injEq] at h
      subst h
      exact ⟨le_refl _, by simp, a, by simp, ha⟩
    · simp only [ha, if_false] at h
      obtain ⟨hs, hlen, x, hget, hx⟩ := findIdx?_spec p l (s + 1) i h
      refine ⟨by omega, by simp; omega, x, ?_, hx⟩
      have hidx : i - s = (i - (s + 1)) + 1 := by omega
      rw [hidx]
      simpa using hget

/-! ## C3: a found range always yields a non-empty container -/

/-- C3: whenever a start element is known (any member of the flattened
element list) the extraction container holds its deep clone as first child,
so `extractElementsRange` never takes the `null`-for-empty branch; hence
scoped conversion returns the warning exactly when the start search or the
end search fails, and otherwise returns rendered Markdown. -/
theorem c3_container_never_empty (doc : Node) :
    (∀ sp sn ep, (sp, sn) ∈ (removeUnwantedElements doc).elemsWP →
        ∃ rest, ConvUn.extractElementsRange (removeUnwantedElements doc) sp ep
          = some (.elem "div" [] (.cons sn rest)))
    ∧ (ConvUn.extractSpecificSection (removeUnwantedElements doc) = none ↔
        (((removeUnwantedElements doc).elemsWP).findIdx? ConvUn.hitsStart = none
         ∨ ∃ i, ((removeUnwantedElements doc).elemsWP).findIdx? ConvUn.hitsStart = some i
             ∧ (((removeUnwantedElements doc).elemsWP).drop (i + 1)).find? ConvUn.hitsEnd
                 = none))
    ∧ ((∃ c, ConvUn.extractSpecificSection (removeUnwantedElements doc) = some c
          ∧ ConvUn.convertHtmlToMarkdown doc = jsTrim (ConvUn.processElement c))
       ∨ (ConvUn.extractSpecificSection (removeUnwantedElements doc) = none
          ∧ ConvUn.convertHtmlToMarkdown doc = ConvUn.warningMessage)) := by
  have hrange : ∀ sp sn ep, (sp, sn) ∈ (removeUnwantedElements doc).elemsWP →
      ∃ rest, ConvUn.extractElementsRange (removeUnwantedElements doc) sp ep
        = some (.elem "div" [] (.cons sn rest)) := by
    intro sp sn ep hmem
    obtain ⟨hat, hel⟩ := memWP_node (removeUnwantedElements doc) sp sn hmem
    cases sn with
    | text s => simp [Node.isElem] at hel
    | elem ts as css =>
      refine ⟨NodeList.ofList (ConvUn.rangeCollect (removeUnwantedElements doc) ep
          (((removeUnwantedElements doc).elemsWP).length + 1)
          (ConvUn.getNextElement (removeUnwantedElements doc) sp)), ?_⟩
      simp [ConvUn.extractElementsRange, hat, NodeList.ofList, ConvUn.finalizeContainer,
        NodeList.countElems]
  refine ⟨hrange, ?_, ?_⟩
  · cases hfs : ((removeUnwantedElements doc).elemsWP).findIdx? ConvUn.hitsStart with
    | none => simp [ConvUn.extractSpecificSection, hfs]
    | some i =>
      cases hfe : (((removeUnwantedElements doc).elemsWP).drop (i + 1)).find? ConvUn.hitsEnd
          with
      | none =>
        have hl : ConvUn.extractSpecificSection (removeUnwantedElements doc) = none := by
          simp only [ConvUn.extractSpecificSection, hfs, hfe]
        exact iff_of_true hl (Or.inr ⟨i, rfl, hfe⟩)
      | some endE =>
        obtain ⟨-, hlen, x, hget, -⟩ := findIdx?_spec ConvUn.hitsStart _ 0 i hfs
        rw [Nat.sub_zero] at hget hlen
        have hmem : x ∈ (removeUnwantedElements doc).elemsWP := List.get?_mem hget
        have hgetD : ((removeUnwantedElements doc).elemsWP).getD i ([], Node.text "") = x := by
          rw [List.getD_eq_getD_get?, hget]
          rfl
        obtain ⟨rest, hsome⟩ := hrange x.1 x.2 endE.1 (by simpa using hmem)
        have hext : ConvUn.extractSpecificSection (removeUnwantedElements doc)
            = some (Node.elem "div" [] (NodeList.cons x.2 rest)) := by
          simp only [ConvUn.extractSpecificSection, hfs, hfe, hgetD]
          exact hsome
        simp only [hext, hfs]
        simp only [Option.some.injEq, reduceCtorEq, false_iff, not_or, not_exists, not_and]
        refine ⟨by simp, fun i' hi' => ?_⟩
        subst hi'
        simp [hfe]
  · cases hx : ConvUn.extractSpecificSection (removeUnwantedElements doc) with
    | none => exact Or.inr ⟨rfl, by simp [ConvUn.convertHtmlToMarkdown, hx]⟩
    | some c => exact Or.inl ⟨c, rfl, by simp [ConvUn.convertHtmlToMarkdown, hx]⟩

theorem c3_witness :
    ([0], sampleHtmlBoth) ∈ (removeUnwantedElements sampleDocBoth).elemsWP
    ∧ (∃ rest, ConvUn.extractElementsRange (removeUnwantedElements sampleDocBoth) [0] [99]
        = some (.elem "div" [] (.cons sampleHtmlBoth rest)))
    ∧ ConvUn.extractSpecificSection (removeUnwantedElements sampleDocNoEnd) = none := by
  refine ⟨by decide, (c3_container_never_empty sampleDocBoth).1 [0] sampleHtmlBoth [99]
    (by decide), ?_⟩
  exact (c3_container_never_empty sampleDocNoEnd).2.1.mpr (Or.inr ⟨0, by decide, by decide⟩)

/-! ## C1: the start element is the first hit of a parent-before-child
document-order traversal -/

theorem textSeg_list :
    ∀ (cs : NodeList) (i₀ : Nat) (p : List Nat) (m : Node),
      (p, m) ∈ NodeList.elemsWP cs i₀ →
      SegIn m.textContent.data (NodeList.textContent cs).data
  | .nil, _, _, _, h => absurd h (by simp [NodeList.elemsWP])
  | .cons (.text s) cs, i₀, p, m, h => by
    have hseg := textSeg_list cs (i₀ + 1) p m (by simpa [NodeList.elemsWP] using h)
    refine hseg.trans_seg ⟨s.data, [], ?_⟩
    simp [NodeList.textContent, Node.textContent, String.data_append]
  | .cons (.elem t a cs') cs, i₀, p, m, h => by
    rw [NodeList.elemsWP] at h
    rcases List.mem_cons.mp h with heq | hrest
    · cases heq
      refine ⟨[], (NodeList.textContent cs).data, ?_⟩
      simp [NodeList.textContent, Node.textContent, String.data_append]
    · rcases List.mem_append.mp hrest with hmid | htail
      · obtain ⟨⟨q', m'⟩, hqm, heq⟩ := List.mem_map.mp hmid
        have hmeq : m' = m := congrArg Prod.snd heq
        subst hmeq
        have hseg := textSeg_list cs' 0 q' m' hqm
        refine hseg.trans_seg ⟨[], (NodeList.textContent cs).data, ?_⟩
        simp [NodeList.textContent, Node.textContent, String.data_append]
      · have hseg := textSeg_list cs (i₀ + 1) p m htail
        refine hseg.trans_seg ⟨(Node.textContent (.elem t a cs')).data, [], ?_⟩
        simp [NodeList.textContent, String.data_append]

theorem elemsWP_ancestor_split :
    ∀ (cs : NodeList) (i₀ : Nat) (q : List Nat) (m : Node) (p ext : List Nat),
      (q, m) ∈ NodeList.elemsWP cs i₀ → q = ext ++ p → ext ≠ [] → p ≠ [] →
      ∃ n L1 L2 L3,
        NodeList.elemsWP cs i₀ = L1 ++ ((p, n) :: (L2 ++ ((q, m) :: L3)))
          ∧ SegIn m.textContent.data n.textContent.data
  | .nil, _, _, _, _, _, h, _, _, _ => absurd h (by simp [NodeList.elemsWP])
  | .cons (.text s) cs, i₀, q, m, p, ext, h, hq, hext, hp => by
    rw [NodeList.elemsWP] at h ⊢
    exact elemsWP_ancestor_split cs (i₀ + 1) q m p ext h hq hext hp
  | .cons (.elem t a cs') cs, i₀, q, m, p, ext, h, hq, hext, hp => by
    rw [NodeList.elemsWP] at h ⊢
    rcases List.mem_cons.mp h with heq | hrest
    · exfalso
      obtain ⟨hq', -⟩ := Prod.mk.injEq .. ▸ heq
      have h1 : q.length = 1 := by rw [hq']; rfl
      have h2 : q.length = ext.length + p.length := by
        rw [hq, List.length_append]
      have h3 : 0 < ext.length := List.length_pos.mpr hext
      have h4 : 0 < p.length := List.length_pos.mpr hp
      omega
    · rcases List.mem_append.mp hrest with hmid | htail
      · obtain ⟨⟨q', m'⟩, hqm, heq⟩ := List.mem_map.mp hmid
        have hqeq : q' ++ [i₀] = q := congrArg Prod.fst heq
        have hmeq : m' = m := congrArg Prod.snd heq
        subst hmeq
        rcases List.eq_nil_or_concat p with rfl | ⟨p', lastp, hp'⟩
        · exact absurd rfl hp
        · rw [List.concat_eq_append] at hp'
          have hkey : q' ++ [i₀] = (ext ++ p') ++ [lastp] := by
            rw [hqeq, hq, hp', ← List.append_assoc]
          obtain ⟨hq'eq, hlast⟩ := List.append_inj' hkey rfl
          have hlastp : lastp = i₀ := by
            injection hlast.symm
          rcases List.eq_nil_or_concat' p' with rfl | hpne
          · -- the parent is the head element itself
            have hpval : p = [i₀] := by rw [hp', hlastp]; rfl
            obtain ⟨m1, m2, hm12⟩ := List.append_of_mem hmid
            refine ⟨Node.elem t a cs', [], m1, m2 ++ NodeList.elemsWP cs (i₀ + 1), ?_, ?_⟩
            · rw [hpval, hm12]
              simp
            · have hseg := textSeg_list cs' 0 q' m' hqm
              simpa [Node.textContent] using hseg
          · obtain ⟨p'', lp', hp''⟩ := hpne
            have hp'ne : p' ≠ [] := by
              rw [hp'']
              simp
            obtain ⟨n, L1, L2, L3, hsplit, hseg⟩ :=
              elemsWP_ancestor_split cs' 0 q' m' p' ext hqm hq'eq hext hp'ne
            refine ⟨n, ([i₀], Node.elem t a cs')
                :: (L1.map (fun r => (r.1 ++ [i₀], r.2))),
              L2.map (fun r => (r.1 ++ [i₀], r.2)),
              (L3.map (fun r => (r.1 ++ [i₀], r.2))) ++ NodeList.elemsWP cs (i₀ + 1),
              ?_, hseg⟩
            rw [hsplit, hp', hlastp, ← hqeq]
            simp
      · obtain ⟨n, L1, L2, L3, hsplit, hseg⟩ :=
          elemsWP_ancestor_split cs (i₀ + 1) q m p ext htail hq hext hp
        refine ⟨n, (([i₀], Node.elem t a cs')
            :: (NodeList.elemsWP cs' 0).map (fun r => (r.1 ++ [i₀], r.2))) ++ L1,
          L2, L3, ?_, hseg⟩
        rw [hsplit]
        simp

theorem hitsStart_mono (pn qm : List Nat × Node)
    (hseg : SegIn qm.2.textContent.data pn.2.textContent.data)
    (h : ConvUn.hitsStart qm = true) : ConvUn.hitsStart pn = true := by
  unfold ConvUn.hitsStart at h ⊢
  by_cases h1 : qm.2.textContent = ""
  · simp [h1] at h
  · rw [if_neg h1] at h
    have hs : SegIn ("実行時間制限:".data) qm.2.textContent.data := (strContains_iff _ _).mp h
    have h1' : qm.2.textContent.data ≠ [] := (string_ne_empty_iff_data _).mp h1
    have hne : pn.2.textContent ≠ "" := (string_ne_empty_iff_data _).mpr (hseg.ne_nil h1')
    rw [if_neg hne]
    exact (strContains_iff _ _).mpr (hs.trans_seg hseg)

theorem findIdx_first_split {α : Type} (p : α → Bool) :
    ∀ (L1 : List α) (x : α) (L2 : List α) (y : α) (L3 : List α), p x = true →
      ∃ i e l1 l2, List.findIdx? p (L1 ++ (x :: (L2 ++ (y :: L3)))) = some i
        ∧ L1 ++ (x :: (L2 ++ (y :: L3))) = l1 ++ (e :: l2) ∧ l1.length = i
        ∧ p e = true ∧ (∀ z ∈ l1, p z = false) ∧ y ∈ l2
  | [], x, L2, y, L3, hx =>
    ⟨0, x, [], L2 ++ (y :: L3), by simp [List.findIdx?_cons, hx], rfl, rfl, hx,
      by simp, by simp⟩
  | a :: L1, x, L2, y, L3, hx => by
    by_cases ha : p a = true
    · exact ⟨0, a, [], L1 ++ (x :: (L2 ++ (y :: L3))),
        by simp [List.findIdx?_cons, ha], rfl, rfl, ha, by simp, by simp⟩
    · obtain ⟨i, e, l1, l2, hf, hdec, hlen, hpe, hmiss, hy⟩ :=
        findIdx_first_split p L1 x L2 y L3 hx
      refine ⟨i + 1, e, a :: l1, l2, ?_, by simp [hdec], by simp [hlen], hpe, ?_, hy⟩
      · rw [List.cons_append, List.findIdx?_cons]
        simp only [ha, if_false]
        rw [List.findIdx?_succ, hf]
        rfl
      · intro z hz
        rcases List.mem_cons.mp hz with rfl | hz'
        · simpa using ha
        · exact hmiss z hz'

/-- C1: the Range Extractor selects as start element the first element in
the flattened pre-order (parent-before-child) document-order list whose
text content contains the start marker; in particular, when a strict
descendant (at reversed path `ext ++ p`, below the element at reversed path
`p`) contains the marker, the selected element lies strictly before the
descendant in that list, so the descendant is never selected over its
ancestor. -/
theorem c1_outermost_start_selection (doc : Node) (q p ext : List Nat) (m : Node)
    (hmem : (q, m) ∈ doc.elemsWP) (hq : q = ext ++ p) (hext : ext ≠ []) (hp : p ≠ [])
    (hhit : ConvUn.hitsStart (q, m) = true) :
    ∃ i e l1 l2,
      (doc.elemsWP).findIdx? ConvUn.hitsStart = some i
      ∧ doc.elemsWP = l1 ++ (e :: l2) ∧ l1.length = i
      ∧ ConvUn.hitsStart e = true
      ∧ (∀ x ∈ l1, ConvUn.hitsStart x = false)
      ∧ (q, m) ∈ l2 := by
  cases doc with
  | text s => simp [Node.elemsWP] at hmem
  | elem t a cs =>
    rw [Node.elemsWP] at hmem ⊢
    obtain ⟨n, L1, L2, L3, hsplit, hseg⟩ :=
      elemsWP_ancestor_split cs 0 q m p ext hmem hq hext hp
    have hx : ConvUn.hitsStart (p, n) = true :=
      hitsStart_mono (p, n) (q, m) hseg hhit
    rw [hsplit]
    exact findIdx_first_split ConvUn.hitsStart L1 (p, n) L2 (q, m) L3 hx

theorem c1_witness :
    (([0, 0], sampleDivBoth) ∈ sampleDocBoth.elemsWP
      ∧ ([0, 0] : List Nat) = [0] ++ [0]
      ∧ ConvUn.hitsStart ([0, 0], sampleDivBoth) = true)
    ∧ ∃ i e l1 l2,
        (sampleDocBoth.elemsWP).findIdx? ConvUn.hitsStart = some i
        ∧ sampleDocBoth.elemsWP = l1 ++ (e :: l2) ∧ l1.length = i
        ∧ ConvUn.hitsStart e = true
        ∧ (∀ x ∈ l1, ConvUn.hitsStart x = false)
        ∧ ([0, 0], sampleDivBoth) ∈ l2 :=
  ⟨⟨by decide, by decide, by decide⟩,
    c1_outermost_start_selection sampleDocBoth [0, 0] [0] [0] sampleDivBoth
      (by decide) (by decide) (by decide) (by decide) (by decide)⟩
